import Mathlib

/-!
Verification of the pdf_ai pipeline (pdf_reader.py, ai.py, main.py).

The Python code is shallowly embedded over `List Char`: a Python `str` is
modelled as the list of its characters, so every string operation the code
uses (strip, split, replace, startswith, substring membership, int parsing,
splitlines) is a structurally recursive Lean function mirroring the CPython
semantics on ASCII data.  External collaborators (the filesystem, the OCR
engine, the OpenAI client) are parameters of the embedded functions.
-/

/-- Characters of a string literal; Python `str` values are `List Char` here. -/
def str (s : String) : List Char := s.data

/-- Python whitespace test, restricted to the ASCII whitespace characters
that occur in this pipeline's data (space, tab, CR, LF). -/
def pyWs (c : Char) : Bool := c = ' ' || c = '\t' || c = '\r' || c = '\n'

/-- Python `s.strip()`: drop leading and trailing whitespace. -/
def pyStrip (s : List Char) : List Char :=
  (((s.dropWhile pyWs).reverse.dropWhile pyWs)).reverse

/-- Python `sep in s` (substring membership) for a nonempty separator. -/
def containsList (sep : List Char) : List Char → Bool
  | [] => sep.isEmpty
  | c :: cs => sep.isPrefixOf (c :: cs) || containsList sep cs

/-- Python `s.split(sep)[0]`: the segment before the first occurrence of
`sep` (the whole of `s` when `sep` does not occur). -/
def takeUntilSub (sep : List Char) : List Char → List Char
  | [] => []
  | c :: cs => if sep.isPrefixOf (c :: cs) then [] else c :: takeUntilSub sep cs

/-- The remainder of `s` after the first occurrence of `sep`
(`none` when `sep` does not occur in `s`). -/
def afterFirstSub (sep : List Char) : List Char → Option (List Char)
  | [] => none
  | c :: cs =>
    if sep.isPrefixOf (c :: cs) then some ((c :: cs).drop sep.length)
    else afterFirstSub sep cs

/-- Python `filename.replace(".txt", "")`: remove every (non-overlapping,
left-to-right) occurrence of `.txt`. -/
def replace_txt : List Char → List Char
  | '.' :: 't' :: 'x' :: 't' :: cs => replace_txt cs
  | c :: cs => c :: replace_txt cs
  | [] => []

/-- Python `s.splitlines()` for the line breaks `\r\n`, `\n` and `\r`:
every line break ends a line, and a trailing break produces no extra
empty line. -/
def pySplitlines : List Char → List Char → List (List Char)
  | acc, '\r' :: '\n' :: restTail => acc.reverse :: pySplitlines [] restTail
  | acc, '\n' :: restTail => acc.reverse :: pySplitlines [] restTail
  | acc, '\r' :: restTail => acc.reverse :: pySplitlines [] restTail
  | acc, c :: restTail => pySplitlines (c :: acc) restTail
  | acc, [] => if acc.isEmpty then [] else [acc.reverse]

/-- Digit runs accepted by Python `int`, continuing after a first digit:
further digits, with single underscores allowed between digits only. -/
def pyDigitsCore : List Char → Nat → Option Nat
  | [], acc => some acc
  | c :: cs, acc =>
    if c.isDigit then pyDigitsCore cs (acc * 10 + (c.toNat - 48))
    else if c = '_' then
      match cs with
      | c2 :: cs2 =>
        if c2.isDigit then pyDigitsCore cs2 (acc * 10 + (c2.toNat - 48)) else none
      | [] => none
    else none

/-- An unsigned digit run accepted by Python `int`: at least one digit,
underscores only between digits. -/
def pyParseUDigits : List Char → Option Nat
  | [] => none
  | c :: cs => if c.isDigit then pyDigitsCore cs (c.toNat - 48) else none

/-- Python `int(s)` on ASCII data: strip surrounding whitespace, allow an
optional sign, then a digit run; `none` models the `ValueError`. -/
def pythonInt (s : List Char) : Option Int :=
  match pyStrip s with
  | [] => none
  | c :: cs =>
    if c = '+' then (pyParseUDigits cs).map (fun n => (n : Int))
    else if c = '-' then (pyParseUDigits cs).map (fun n => -(n : Int))
    else (pyParseUDigits (c :: cs)).map (fun n => (n : Int))

/-- The `"_page_"` filename marker of ai.py. -/
def pageMarker : List Char := str "_page_"

/-- The `".txt"` extension suffix used when scanning the artifact folder. -/
def txtExt : List Char := str ".txt"

/-- `ai.py` `extract_page_number`: when `"_page_"` occurs in the filename,
parse `filename.split("_page_")[1].split(".")[0]` with Python `int`; any
`IndexError`/`ValueError` (and the no-marker case) yields page 1. -/
def extract_page_number (filename : List Char) : Int :=
  if containsList pageMarker filename then
    match afterFirstSub pageMarker filename with
    | some restName =>
      match pythonInt (takeUntilSub ['.'] (takeUntilSub pageMarker restName)) with
      | some k => k
      | none => 1
    | none => 1
  else 1

/-- The group key `ai.py` `group_files` assigns to a `.txt` filename:
`filename.split("_page_")[0]` when the marker occurs, otherwise
`filename.replace(".txt", "")`. -/
def fileKey (filename : List Char) : List Char :=
  if containsList pageMarker filename then takeUntilSub pageMarker filename
  else replace_txt filename

/-- Append a value to the entry of `k` in an insertion-ordered association
list of lists, creating the entry at the end when absent (the behaviour of
`collections.defaultdict(list)` under `groups[k].append v`). -/
def dictAppendA : List (List Char × List (List Char)) → List Char → List Char →
    List (List Char × List (List Char))
  | [], k, v => [(k, [v])]
  | (k2, vs) :: restEntries, k, v =>
    if k2 = k then (k2, vs ++ [v]) :: restEntries
    else (k2, vs) :: dictAppendA restEntries k v

/-- The body of the `for filename in os.listdir(txt_folder)` loop of
`ai.py` `group_files`: a `.txt` filename is appended to the group of its
`fileKey`; other filenames are ignored. -/
def group_step (g : List (List Char × List (List Char))) (f : List Char) :
    List (List Char × List (List Char)) :=
  if txtExt.isSuffixOf f then dictAppendA g (fileKey f) f else g

/-- `ai.py` `group_files` over a directory listing. -/
def group_files (listing : List (List Char)) : List (List Char × List (List Char)) :=
  listing.foldl group_step []

/-- Lookup of one group's file list in the grouping structure. -/
def groupGet (g : List (List Char × List (List Char))) (k : List Char) :
    Option (List (List Char)) :=
  (g.find? (fun e => e.1 == k)).map (fun e => e.2)

/-- `ai.py` `validate_csv_row`: reject blank lines, comment-style lines,
lines echoing the prompt's `CSV OUTPUT` label, and lines with fewer than 5
commas; otherwise return the stripped line. -/
def validate_csv_row (row : List Char) : Option (List Char) :=
  if pyStrip row = [] then none
  else if (str "#").isPrefixOf row || (str "Note:").isPrefixOf row
      || containsList (str "CSV OUTPUT") row then none
  else if row.count ',' < 5 then none
  else some (pyStrip row)

/-- The fixed CSV header line of ai.py. -/
def headerRow : List Char := str "question,marks,paper_title,filename,page,year"

/-- The per-page results dictionary built in `ai.py` `main`: assignments
`results[filename] = out` in completion order, later assignments winning. -/
def dictGet (completions : List (List Char × List Char)) (k : List Char) :
    Option (List Char) :=
  (completions.reverse.find? (fun p => p.1 == k)).map (fun p => p.2)

/-- The rows one file contributes inside `ai.py` `merge_csv_data`: nothing
unless the file has a non-empty result, else its validated lines. -/
def pageRows (completions : List (List Char × List Char)) (filename : List Char) :
    List (List Char) :=
  match dictGet completions filename with
  | some out => if out = [] then [] else (pySplitlines [] out).filterMap validate_csv_row
  | none => []

/-- `ai.py` `merge_csv_data`: the header followed by every surviving line of
every file, in the order of `sorted_files`. -/
def merge_csv_data (completions : List (List Char × List Char))
    (sorted_files : List (List Char)) : List (List Char) :=
  headerRow :: sorted_files.flatMap (pageRows completions)

/-- The prompt built by `ai.py` `process_page` (the f-string with
`exam_prefix`, `page_number` and the page text substituted). -/
def build_prompt (examId : List Char) (page_number : Int) (text : List Char) : String :=
  "You are a CSV data extractor for medical exam papers. Convert the following exam text into CSV format.\n\n### OUTPUT FORMAT ###\nEach row must follow this exact structure:\nquestion,marks,paper_title,filename,page,year\n\n### EXTRACTION RULES ###\n1. Extract EVERY question from the text (including sub-parts like (a), (b), etc.)\n2. Clean questions: remove numbering (1., 2., etc.) and section letters, keep only the actual question text\n3. Set marks = 5 for each question (unless explicitly stated otherwise)\n4. Extract paper title from the exam heading exactly as written\n   Examples: \n   - \"M.S. Degree Examination, March 1990 – General Surgery – Applied Basic Sciences\"\n   - \"M.S. DEGREE EXAMINATION, OCTOBER 1990 Branch I — General Surgery Part I\"\n5. Use filename: "
    ++ String.mk examId ++ ".pdf\n6. Use page: " ++ toString page_number
    ++ "\n7. Extract year from the exam date (e.g., March 1990 → 1990, October 1990 → 1990)\n8. Put quotes around fields that contain commas\n9. Output ONLY CSV rows - no headers, no explanations, no extra text\n\n### SAMPLE INPUT ###\n\"1. Describe the surgical anatomy of the thyroid gland.\n2. Write notes on: (a) Deep palmar spaces. (b) Femoral canal.\"\n\n### SAMPLE OUTPUT ###\n\"Describe the surgical anatomy of the thyroid gland\",5,\"M.S. Degree Examination, March 1990 – General Surgery\",\""
    ++ String.mk examId ++ ".pdf\"," ++ toString page_number
    ++ ",1990\n\"Write notes on: Deep palmar spaces\",5,\"M.S. Degree Examination, March 1990 – General Surgery\",\""
    ++ String.mk examId ++ ".pdf\"," ++ toString page_number
    ++ ",1990\n\"Write notes on: Femoral canal\",5,\"M.S. Degree Examination, March 1990 – General Surgery\",\""
    ++ String.mk examId ++ ".pdf\"," ++ toString page_number
    ++ ",1990\n\n### TEXT TO CONVERT ###\n" ++ String.mk text ++ "\n\n### CSV OUTPUT ###"

/-- `ai.py` `process_page`: read the page's artifact (via `readFile`, which
models opening the file in `txt_folder`), bail out with an empty result on
a read error or a blank file, otherwise submit the prompt to the language
model (`llm`, modelling the OpenAI chat call); an `llm` error is caught and
also yields the empty result.  Always returns `(filename, output)`. -/
def process_page (readFile : List Char → Except String (List Char))
    (llm : String → Except String String)
    (examId filename : List Char) (page_number : Int) : List Char × List Char :=
  match readFile filename with
  | .error _ => (filename, [])
  | .ok text =>
    if pyStrip text = [] then (filename, [])
    else
      match llm (build_prompt examId page_number text) with
      | .error _ => (filename, [])
      | .ok out => (filename, pyStrip out.data)

/-- The comparison underlying `sorted(files, key=extract_page_number)`. -/
def pageOrder (a b : List Char) : Prop :=
  extract_page_number a ≤ extract_page_number b

instance : DecidableRel pageOrder := fun _ _ => Int.decLe _ _

instance : IsTotal (List Char) pageOrder := ⟨fun _ _ => Int.le_total _ _⟩

instance : IsTrans (List Char) pageOrder := ⟨fun _ _ _ h1 h2 => le_trans h1 h2⟩

/-- `sorted(files, key=extract_page_number)` from `ai.py` `main`: a stable
ascending sort by extracted page number (stable sorts under a total
preorder agree pointwise, so insertion sort models CPython's sort). -/
def pySorted (files : List (List Char)) : List (List Char) :=
  List.insertionSort pageOrder files

/-- The lines `ai.py` `save_combined_csv` writes: one header, then for each
exam (in `all_exam_data` insertion order) its rows past the header, keeping
only lines that are non-blank after stripping. -/
def save_combined_lines (all_exam_data : List (List Char × List (List Char))) :
    List (List Char) :=
  headerRow ::
    all_exam_data.flatMap (fun e => (e.2.drop 1).filter (fun r => !(pyStrip r).isEmpty))

/-- The observable state of the per-exam loop in `ai.py` `main`:
`writes` records each `save_individual_csv` invocation, `all_exam_data`
the exams kept for the combined CSV, `successes` the success counter. -/
structure MainState where
  writes : List (List Char × List (List Char))
  all_exam_data : List (List Char × List (List Char))
  successes : Nat
deriving DecidableEq

/-- One iteration of the per-exam loop in `ai.py` `main`: sort the group's
files by page number, merge the per-page results, and only when more than
the header survives attempt the per-exam save, recording the exam for the
combined CSV and counting it on save success.  `resultsFor` abstracts the
thread pool's completed `process_page` results for a group, `saveOk` the
outcome of `save_individual_csv`. -/
def main_step (saveOk : List Char → List (List Char) → Bool)
    (resultsFor : List Char → List (List Char) → List (List Char × List Char))
    (st : MainState) (g : List Char × List (List Char)) : MainState :=
  let sorted_files := pySorted g.2
  let all_rows := merge_csv_data (resultsFor g.1 g.2) sorted_files
  if 1 < all_rows.length then
    if saveOk g.1 all_rows then
      ⟨st.writes ++ [(g.1, all_rows)], st.all_exam_data ++ [(g.1, all_rows)],
        st.successes + 1⟩
    else ⟨st.writes ++ [(g.1, all_rows)], st.all_exam_data, st.successes⟩
  else st

/-- The per-exam loop of `ai.py` `main` over all groups. -/
def main_loop (saveOk : List Char → List (List Char) → Bool)
    (resultsFor : List Char → List (List Char) → List (List Char × List Char))
    (groups : List (List Char × List (List Char))) : MainState :=
  groups.foldl (main_step saveOk resultsFor) ⟨[], [], 0⟩

/-- Modelled from the spec: the Chunker component (spec §4.3) has no code
under src/ (the sources contain only the per-page variant), so it is
modelled from the spec's words: split an ordered page group into
consecutive chunks of at most `M` pages.  `acc` holds the current chunk
reversed and `k` its remaining capacity. -/
def chunkAux {α : Type} (M : Nat) : List α → List α → Nat → List (List α)
  | [], acc, _ => if acc.isEmpty then [] else [acc.reverse]
  | x :: xs, acc, 0 => acc.reverse :: chunkAux M xs [x] (M - 1)
  | x :: xs, acc, k + 1 => chunkAux M xs (x :: acc) k

/-- Modelled from the spec: the Chunker's entry point — partition `pages`
into maximal consecutive runs of at most `M` elements (default 8 in the
spec). -/
def chunk_pages {α : Type} (M : Nat) (pages : List α) : List (List α) :=
  chunkAux M pages [] M

/-- One PDF page as pdf_reader.py sees it: the native text layer, and for
each embedded image the bytes `document.extract_image` recovers (`none`
when the image dict has no bytes). -/
structure PdfPage (β : Type) where
  text : List Char
  images : List (Option β)

/-- The OCR fragments pdf_reader.py keeps for one page: for every image
with extractable bytes, the stripped `pytesseract` output, kept only when
non-empty. -/
def ocrTexts {β : Type} (ocr : β → List Char) (images : List (Option β)) :
    List (List Char) :=
  images.filterMap (fun ob => ob.bind (fun b =>
    let t := pyStrip (ocr b)
    if t = [] then none else some t))

/-- The combined text pdf_reader.py composes for one page: the stripped
native text layer, with the OCR fragments joined by blank lines and
appended after a blank line when any exist. -/
def page_artifact {β : Type} (ocr : β → List Char) (p : PdfPage β) : List Char :=
  let page_text := pyStrip p.text
  let ocr_list := ocrTexts ocr p.images
  if ocr_list.isEmpty then page_text
  else page_text ++ str "\n\n" ++ List.intercalate (str "\n\n") ocr_list

/-- `pdf_reader.py` `extract_text_from_pdf` in `"separate"` save mode: the
per-page artifacts written, one per page of the opened document. -/
def extract_text_from_pdf_separate {β : Type} (ocr : β → List Char)
    (pages : List (PdfPage β)) : List (List Char) :=
  pages.map (page_artifact ocr)

/-- The decimal value of a digit string. -/
def digitsVal (ds : List Char) : Nat :=
  ds.foldl (fun a c => a * 10 + (c.toNat - 48)) 0

/-- The `.txt` files of the listing assigned to group `k`. -/
def keyFiles (listing : List (List Char)) (k : List Char) : List (List Char) :=
  listing.filter (fun f => txtExt.isSuffixOf f && fileKey f == k)

/-- For a nonempty separator, substring membership coincides with the
success of `afterFirstSub`. -/
theorem containsList_eq_isSome (sep : List Char) (hs : sep ≠ []) (s : List Char) :
    containsList sep s = (afterFirstSub sep s).isSome := by
  induction s with
  | nil =>
    simp [containsList, afterFirstSub, List.isEmpty_iff, hs]
  | cons c cs ih =>
    unfold containsList afterFirstSub
    by_cases h : sep.isPrefixOf (c :: cs) <;> simp [h, ih]

/-- When the first occurrence of `sep` in a string is at position
`a.length` (no occurrence starts inside `a`), splitting at the first
occurrence yields `a` before and `b` after. -/
theorem split_first_occurrence (sep : List Char) (hs : sep ≠ []) (a b : List Char)
    (hfirst : ∀ i < a.length, sep.isPrefixOf ((a ++ sep ++ b).drop i) = false) :
    takeUntilSub sep (a ++ sep ++ b) = a ∧
      afterFirstSub sep (a ++ sep ++ b) = some b := by
  induction a with
  | nil =>
    obtain ⟨s0, stl, rfl⟩ : ∃ s0 stl, sep = s0 :: stl := by
      cases sep with
      | nil => exact absurd rfl hs
      | cons s0 stl => exact ⟨s0, stl, rfl⟩
    have hp : (s0 :: stl).isPrefixOf ((s0 :: stl) ++ b) = true := by
      rw [List.isPrefixOf_iff_prefix]; exact List.prefix_append _ b
    refine ⟨?_, ?_⟩
    · show takeUntilSub (s0 :: stl) (s0 :: (stl ++ b)) = []
      rw [takeUntilSub]
      simp [show (s0 :: stl).isPrefixOf (s0 :: (stl ++ b)) = true from hp]
    · show afterFirstSub (s0 :: stl) (s0 :: (stl ++ b)) = some b
      rw [afterFirstSub]
      simp only [show (s0 :: stl).isPrefixOf (s0 :: (stl ++ b)) = true from hp,
        if_pos]
      exact congrArg some (List.drop_left (s0 :: stl) b)
  | cons c a' ih =>
    have h0 : sep.isPrefixOf (c :: (a' ++ sep ++ b)) = false := by
      have := hfirst 0 (by simp)
      simpa using this
    have hrest : ∀ i < a'.length, sep.isPrefixOf ((a' ++ sep ++ b).drop i) = false := by
      intro i hi
      have := hfirst (i + 1) (by simpa using Nat.succ_lt_succ hi)
      simpa using this
    obtain ⟨ht, ha⟩ := ih hrest
    refine ⟨?_, ?_⟩
    · show takeUntilSub sep (c :: (a' ++ sep ++ b)) = c :: a'
      rw [takeUntilSub, if_neg (by simp only [h0]; exact Bool.false_ne_true)]
      exact congrArg (c :: ·) ht
    · show afterFirstSub sep (c :: (a' ++ sep ++ b)) = some b
      rw [afterFirstSub, if_neg (by simp only [h0]; exact Bool.false_ne_true)]
      exact ha

/-- No occurrence of a separator beginning with `s0` can start inside a
segment `a` that does not contain `s0`. -/
theorem no_occurrence_inside (s0 : Char) (stl a rest : List Char) (h : s0 ∉ a) :
    ∀ i < a.length, (s0 :: stl).isPrefixOf ((a ++ rest).drop i) = false := by
  intro i hi
  rw [List.drop_append_of_le_length (Nat.le_of_lt hi),
    List.drop_eq_getElem_cons hi, List.cons_append]
  have hne : (s0 == a[i]) = false := by
    refine beq_eq_false_iff_ne.mpr fun he => h ?_
    rw [he]; exact List.getElem_mem hi
  have hunf : (s0 :: stl).isPrefixOf (a[i] :: (List.drop (i + 1) a ++ rest))
      = (s0 == a[i] && stl.isPrefixOf (List.drop (i + 1) a ++ rest)) := rfl
  rw [hunf, hne, Bool.false_and]

/-- A separator beginning with `s0` does not occur in a string avoiding
`s0`. -/
theorem containsList_eq_false_of_notMem (s0 : Char) (stl l : List Char)
    (h : s0 ∉ l) : containsList (s0 :: stl) l = false := by
  induction l with
  | nil => rfl
  | cons c cs ih =>
    have hne : (s0 == c) = false :=
      beq_eq_false_iff_ne.mpr fun he => h (he ▸ List.mem_cons_self c cs)
    have hunf : (s0 :: stl).isPrefixOf (c :: cs)
        = (s0 == c && stl.isPrefixOf cs) := rfl
    rw [containsList, hunf, hne, Bool.false_and, Bool.false_or]
    exact ih fun hm => h (List.mem_cons_of_mem c hm)

/-- When the separator does not occur, `takeUntilSub` is the identity. -/
theorem takeUntilSub_of_not_contains (sep s : List Char)
    (h : containsList sep s = false) : takeUntilSub sep s = s := by
  induction s with
  | nil => rfl
  | cons c cs ih =>
    rw [containsList, Bool.or_eq_false_iff] at h
    rw [takeUntilSub, if_neg (by simp [h.1])]
    exact congrArg (c :: ·) (ih h.2)

/-- On a run of decimal digits, the digit-run scanner accumulates the
decimal value. -/
theorem pyDigitsCore_digits (ds : List Char) (h : ∀ c ∈ ds, c.isDigit = true) :
    ∀ acc : Nat,
      pyDigitsCore ds acc = some (ds.foldl (fun a c => a * 10 + (c.toNat - 48)) acc) := by
  induction ds with
  | nil => intro acc; rfl
  | cons c cs ih =>
    intro acc
    have hc : c.isDigit = true := h c (List.mem_cons_self c cs)
    rw [pyDigitsCore.eq_def]
    simp only [hc, if_true, List.foldl_cons]
    exact ih (fun d hd => h d (List.mem_cons_of_mem c hd)) _

/-- A digit character is not whitespace, a sign, an underscore or a dot. -/
theorem isDigit_excludes (c : Char) (h : c.isDigit = true) :
    pyWs c = false ∧ c ≠ '+' ∧ c ≠ '-' ∧ c ≠ '_' ∧ c ≠ '.' := by
  rw [Char.isDigit] at h
  simp only [Bool.and_eq_true, decide_eq_true_eq] at h
  refine ⟨?_, ?_, ?_, ?_, ?_⟩
  · rw [pyWs]
    simp only [Bool.or_eq_false_iff, decide_eq_false_iff_not]
    refine ⟨⟨⟨fun he => ?_, fun he => ?_⟩, fun he => ?_⟩, fun he => ?_⟩ <;>
      (subst he; revert h; decide)
  all_goals intro he; subst he; revert h; decide

/-- Python `int` of a nonempty digit string is its decimal value. -/
theorem pythonInt_digits (ds : List Char) (hne : ds ≠ [])
    (h : ∀ c ∈ ds, c.isDigit = true) : pythonInt ds = some ((digitsVal ds : Int)) := by
  have hnw : ∀ c ∈ ds, pyWs c = false := fun c hc => (isDigit_excludes c (h c hc)).1
  have hstrip : pyStrip ds = ds := by
    have h1 : ds.dropWhile pyWs = ds :=
      List.dropWhile_eq_self_iff.mpr (by
        intro hx
        rw [hnw _ (List.get_mem ds 0 hx)]
        exact Bool.false_ne_true)
    have h2 : ds.reverse.dropWhile pyWs = ds.reverse :=
      List.dropWhile_eq_self_iff.mpr (by
        intro hx
        rw [hnw _ (List.mem_reverse.mp (List.get_mem ds.reverse 0 hx))]
        exact Bool.false_ne_true)
    rw [pyStrip, h1, h2, List.reverse_reverse]
  obtain ⟨d, ds', rfl⟩ : ∃ d ds', ds = d :: ds' := by
    cases ds with
    | nil => exact absurd rfl hne
    | cons d ds' => exact ⟨d, ds', rfl⟩
  have hd := isDigit_excludes d (h d (List.mem_cons_self d ds'))
  rw [pythonInt.eq_def, hstrip]
  simp only [if_neg hd.2.1, if_neg hd.2.2.1]
  rw [pyParseUDigits, if_pos (h d (List.mem_cons_self d ds'))]
  rw [pyDigitsCore_digits ds' (fun c hc => h c (List.mem_cons_of_mem d hc))]
  simp [digitsVal]

/-- Appending to a group: the entry of the same key grows by the value. -/
theorem groupGet_dictAppendA_same (g : List (List Char × List (List Char)))
    (k v : List Char) :
    groupGet (dictAppendA g k v) k = some ((groupGet g k).getD [] ++ [v]) := by
  induction g with
  | nil => simp [dictAppendA, groupGet]
  | cons e rest ih =>
    by_cases he : e.1 = k
    · rw [show e = (e.1, e.2) from rfl, dictAppendA, if_pos he]
      simp [groupGet, List.find?, he]
    · rw [show e = (e.1, e.2) from rfl, dictAppendA, if_neg he]
      have hb : (e.1 == k) = false := beq_eq_false_iff_ne.mpr he
      simp only [groupGet, List.find?, hb] at ih ⊢
      exact ih

/-- Appending to a group leaves the other keys' entries unchanged. -/
theorem groupGet_dictAppendA_ne (g : List (List Char × List (List Char)))
    (k v k' : List Char) (h : k' ≠ k) :
    groupGet (dictAppendA g k v) k' = groupGet g k' := by
  induction g with
  | nil =>
    have hb : (k == k') = false := beq_eq_false_iff_ne.mpr (Ne.symm h)
    simp [dictAppendA, groupGet, List.find?, hb]
  | cons e rest ih =>
    by_cases he : e.1 = k
    · rw [show e = (e.1, e.2) from rfl, dictAppendA, if_pos he]
      have hb : (e.1 == k') = false := beq_eq_false_iff_ne.mpr (he ▸ Ne.symm h)
      simp [groupGet, List.find?, hb]
    · rw [show e = (e.1, e.2) from rfl, dictAppendA, if_neg he]
      by_cases he' : e.1 = k'
      · have hb : (e.1 == k') = true := beq_iff_eq.mpr he'
        simp [groupGet, List.find?, hb]
      · have hb : (e.1 == k') = false := beq_eq_false_iff_ne.mpr he'
        simp only [groupGet, List.find?, hb] at ih ⊢
        exact ih

/-- Running the grouping loop from any starting structure appends to each
key's entry exactly the `.txt` files of the listing keyed to it. -/
theorem groupGet_foldl (listing : List (List Char)) :
    ∀ (g : List (List Char × List (List Char))) (k : List Char),
      groupGet (listing.foldl group_step g) k =
        match groupGet g k with
        | some vs => some (vs ++ keyFiles listing k)
        | none =>
          if keyFiles listing k = [] then none else some (keyFiles listing k) := by
  induction listing with
  | nil =>
    intro g k
    simp only [List.foldl_nil, keyFiles, List.filter_nil]
    cases groupGet g k <;> simp
  | cons f fs ih =>
    intro g k
    rw [List.foldl_cons]
    by_cases htxt : txtExt.isSuffixOf f = true
    · by_cases hkey : fileKey f = k
      · have hstep : group_step g f = dictAppendA g k f := by
          rw [group_step, if_pos htxt, hkey]
        have hkf : keyFiles (f :: fs) k = f :: keyFiles fs k := by
          rw [keyFiles, List.filter_cons,
            if_pos (by simp [htxt, hkey]), keyFiles]
        rw [hstep, ih (dictAppendA g k f) k,
          groupGet_dictAppendA_same g k f, hkf]
        cases hg : groupGet g k <;> simp [List.append_assoc]
      · have hstep : group_step g f = dictAppendA g (fileKey f) f := by
          rw [group_step, if_pos htxt]
        have hkf : keyFiles (f :: fs) k = keyFiles fs k := by
          rw [keyFiles, List.filter_cons,
            if_neg (by simp [beq_eq_false_iff_ne.mpr hkey]), keyFiles]
        rw [hstep, ih _ k, groupGet_dictAppendA_ne g (fileKey f) f k (Ne.symm hkey), hkf]
    · have hstep : group_step g f = g := by
        rw [group_step, if_neg htxt]
      have hkf : keyFiles (f :: fs) k = keyFiles fs k := by
        rw [keyFiles, List.filter_cons,
          if_neg (by simp [Bool.eq_false_iff.mpr htxt]), keyFiles]
      rw [hstep, ih g k, hkf]

/-- The group of key `k` built by `group_files` is exactly the `.txt` files
of the listing keyed to `k`, in listing order. -/
theorem groupGet_group_files (listing : List (List Char)) (k : List Char) :
    groupGet (group_files listing) k =
      if keyFiles listing k = [] then none else some (keyFiles listing k) := by
  rw [group_files, groupGet_foldl listing [] k]
  rfl

/-- C1 counterexample: the line `" a,b,c,d,e,f"` falls in none of the four
rejection categories, so by the claim it must be accepted unmodified; the
Validator accepts it but returns it altered (whitespace-stripped). -/
theorem C1_counterexample :
    validate_csv_row (str " a,b,c,d,e,f") ≠ none ∧
    validate_csv_row (str " a,b,c,d,e,f") ≠ some (str " a,b,c,d,e,f") := by
  decide

/-- C1 (amended): the Validator rejects exactly the lines that are blank
after stripping, start with a comment marker (`#` or `Note:`), contain the
non-data marker `CSV OUTPUT`, or have fewer than 5 commas; every other
line is accepted with its surrounding whitespace stripped but otherwise
unmodified — in particular verbatim whenever it carries no surrounding
whitespace. -/
theorem C1_validate_spec (row : List Char) :
    (validate_csv_row row = none ↔
      (pyStrip row = [] ∨ (str "#").isPrefixOf row = true ∨
        (str "Note:").isPrefixOf row = true ∨
        containsList (str "CSV OUTPUT") row = true ∨ row.count ',' < 5)) ∧
    (∀ v, validate_csv_row row = some v → v = pyStrip row) ∧
    (validate_csv_row row ≠ none → pyStrip row = row →
      validate_csv_row row = some row) := by
  unfold validate_csv_row
  split_ifs with h1 h2 h3 <;> simp_all [Bool.or_eq_true]
  tauto

/-- C1 witness: a well-formed data line with no surrounding whitespace is
accepted verbatim. -/
theorem C1_witness :
    validate_csv_row (str "q,5,t,f,1,1990") = some (str "q,5,t,f,1,1990") :=
  (C1_validate_spec (str "q,5,t,f,1,1990")).2.2 (by decide) (by decide)

/-- C7: page-number extraction is a total function that parses the suffix
after the first `_page_` marker up to the first dot with Python `int`
semantics; when the marker is absent, or that parse fails, it returns 1
(it can never raise: the embedded function is total by construction). -/
theorem C7_extract_page_number_spec (filename : List Char) :
    (containsList pageMarker filename = false → extract_page_number filename = 1) ∧
    (∀ restName, afterFirstSub pageMarker filename = some restName →
      pythonInt (takeUntilSub ['.'] (takeUntilSub pageMarker restName)) = none →
      extract_page_number filename = 1) ∧
    (∀ restName k, afterFirstSub pageMarker filename = some restName →
      pythonInt (takeUntilSub ['.'] (takeUntilSub pageMarker restName)) = some k →
      extract_page_number filename = k) := by
  have hmarker : (pageMarker : List Char) ≠ [] := by decide
  refine ⟨fun hc => ?_, fun restName ha hp => ?_, fun restName k ha hp => ?_⟩
  · simp [extract_page_number, hc]
  · have hc : containsList pageMarker filename = true := by
      rw [containsList_eq_isSome pageMarker hmarker, ha]; rfl
    simp [extract_page_number, hc, ha, hp]
  · have hc : containsList pageMarker filename = true := by
      rw [containsList_eq_isSome pageMarker hmarker, ha]; rfl
    simp [extract_page_number, hc, ha, hp]

/-- C7 witness: a parsing filename, a marker-less filename, and a filename
whose numeric suffix fails to parse. -/
theorem C7_witness :
    extract_page_number (str "EX_page_3.txt") = 3 ∧
    extract_page_number (str "EX.txt") = 1 ∧
    extract_page_number (str "EX_page_x3.txt") = 1 :=
  ⟨(C7_extract_page_number_spec (str "EX_page_3.txt")).2.2 (str "3.txt") 3
      (by decide) (by decide),
    (C7_extract_page_number_spec (str "EX.txt")).1 (by decide),
    (C7_extract_page_number_spec (str "EX_page_x3.txt")).2.1 (str "x3.txt")
      (by decide) (by decide)⟩

/-- C2: for a filename matching the `{id}_page_{n}.txt` convention — the
exam id being the segment before the first `_page_` marker (formalised by
`hfirst`: no marker occurrence starts inside the id) and `n` a nonempty
digit string — the Grouper keys the file by `id` and places it in that
group for any directory listing containing it; its extracted page number
is the decimal value of `n`; and the sorted file list of every group is in
ascending page-number order. -/
theorem C2_group_and_order (examId ds : List Char)
    (hfirst : ∀ i < examId.length,
      pageMarker.isPrefixOf ((examId ++ pageMarker ++ (ds ++ txtExt)).drop i) = false)
    (hne : ds ≠ []) (hdig : ∀ c ∈ ds, c.isDigit = true) :
    fileKey (examId ++ pageMarker ++ (ds ++ txtExt)) = examId ∧
    (∀ listing, (examId ++ pageMarker ++ (ds ++ txtExt)) ∈ listing →
      (examId ++ pageMarker ++ (ds ++ txtExt)) ∈
        (groupGet (group_files listing) examId).getD []) ∧
    extract_page_number (examId ++ pageMarker ++ (ds ++ txtExt)) = digitsVal ds ∧
    (∀ files, List.Pairwise pageOrder (pySorted files)) := by
  have hsep : (pageMarker : List Char) ≠ [] := by decide
  obtain ⟨htake, hafter⟩ :=
    split_first_occurrence pageMarker hsep examId (ds ++ txtExt) hfirst
  have hcontains :
      containsList pageMarker (examId ++ pageMarker ++ (ds ++ txtExt)) = true := by
    rw [containsList_eq_isSome pageMarker hsep, hafter]; rfl
  have hkey : fileKey (examId ++ pageMarker ++ (ds ++ txtExt)) = examId := by
    rw [fileKey, if_pos hcontains]; exact htake
  have hnounder : '_' ∉ ds ++ txtExt := by
    intro hmem
    rcases List.mem_append.mp hmem with h1 | h1
    · exact absurd (hdig _ h1) (by decide)
    · revert h1; decide
  have hnomarker : containsList pageMarker (ds ++ txtExt) = false := by
    rw [show (pageMarker : List Char) = '_' :: str "page_" from rfl]
    exact containsList_eq_false_of_notMem '_' _ _ hnounder
  have hseg : takeUntilSub pageMarker (ds ++ txtExt) = ds ++ txtExt :=
    takeUntilSub_of_not_contains _ _ hnomarker
  have hnodot : '.' ∉ ds := fun hmem =>
    absurd rfl (isDigit_excludes '.' (hdig _ hmem)).2.2.2.2
  have hdotfirst : ∀ i < ds.length,
      (['.'] : List Char).isPrefixOf (((ds ++ ['.']) ++ str "txt").drop i) = false := by
    intro i hi
    have h2 := no_occurrence_inside '.' [] ds (['.'] ++ str "txt") hnodot i hi
    rwa [← List.append_assoc] at h2
  have hdot : takeUntilSub ['.'] (ds ++ txtExt) = ds := by
    rw [show ds ++ txtExt = (ds ++ ['.']) ++ str "txt" from by
      rw [List.append_assoc]; rfl]
    exact (split_first_occurrence ['.'] (by decide) ds (str "txt") hdotfirst).1
  have hparse :
      pythonInt (takeUntilSub ['.'] (takeUntilSub pageMarker (ds ++ txtExt)))
        = some ((digitsVal ds : Int)) := by
    rw [hseg, hdot]; exact pythonInt_digits ds hne hdig
  have hextract :
      extract_page_number (examId ++ pageMarker ++ (ds ++ txtExt)) = digitsVal ds := by
    rw [extract_page_number, if_pos hcontains, hafter]
    show (match pythonInt (takeUntilSub ['.'] (takeUntilSub pageMarker (ds ++ txtExt))) with
      | some k => k
      | none => 1) = ((digitsVal ds : Int))
    rw [hparse]
  have htxt : txtExt.isSuffixOf (examId ++ pageMarker ++ (ds ++ txtExt)) = true := by
    rw [List.isSuffixOf_iff_suffix, ← List.append_assoc]
    exact List.suffix_append _ txtExt
  refine ⟨hkey, ?_, hextract, fun files => List.sorted_insertionSort pageOrder files⟩
  intro listing hmem
  have hmemkf :
      (examId ++ pageMarker ++ (ds ++ txtExt)) ∈ keyFiles listing examId := by
    rw [keyFiles]
    exact List.mem_filter.mpr ⟨hmem, by rw [htxt, hkey]; simp⟩
  rw [groupGet_group_files,
    if_neg (List.ne_nil_of_mem hmemkf)]
  exact hmemkf

/-- C2 witness: `EX1_page_2.txt` in a two-file listing is grouped under
`EX1` with extracted page number 2. -/
theorem C2_witness :
    (str "EX1_page_2.txt") ∈
      (groupGet (group_files [str "other.txt", str "EX1_page_2.txt"]) (str "EX1")).getD [] ∧
    extract_page_number (str "EX1_page_2.txt") = digitsVal (str "2") := by
  have h := C2_group_and_order (str "EX1") (str "2") (by decide) (by decide) (by decide)
  have he : str "EX1" ++ pageMarker ++ (str "2" ++ txtExt) = str "EX1_page_2.txt" := by
    decide
  constructor
  · have hm := h.2.1 [str "other.txt", str "EX1_page_2.txt"] (by rw [he]; decide)
    rwa [he] at hm
  · have hx := h.2.2.1
    rwa [he] at hx

/-- C8 counterexample: in the listing `["a.txt", "a_page_1.txt"]` the
marker-less artifact `a.txt` lands in the group keyed `a` together with
`a_page_1.txt` — not in a singleton group; and `b.txt.txt` is keyed `b`
(every `.txt` occurrence removed), not `b.txt` (extension removed), so no
group keyed by its name minus extension exists. -/
theorem C8_counterexample :
    groupGet (group_files [str "a.txt", str "a_page_1.txt"]) (str "a")
      = some [str "a.txt", str "a_page_1.txt"] ∧
    ((groupGet (group_files [str "a.txt", str "a_page_1.txt"]) (str "a")).getD []).length
      = 2 ∧
    groupGet (group_files [str "b.txt.txt"]) (str "b.txt") = none ∧
    groupGet (group_files [str "b.txt.txt"]) (str "b") = some [str "b.txt.txt"] := by
  decide

/-- In a duplicate-free list, when exactly one element satisfies the
predicate, filtering yields that singleton. -/
theorem filter_eq_singleton_of_unique {α : Type} (p : α → Bool) :
    ∀ (l : List α) (x : α), x ∈ l → p x = true → l.Nodup →
      (∀ y ∈ l, y ≠ x → p y = false) → l.filter p = [x] := by
  intro l
  induction l with
  | nil => intro x hx; exact absurd hx (List.not_mem_nil x)
  | cons a as ih =>
    intro x hx hp hnd ho
    rcases List.mem_cons.mp hx with rfl | hx'
    · rw [List.filter_cons, if_pos (by simp [hp])]
      have hrest : as.filter p = [] := by
        rw [List.filter_eq_nil_iff]
        intro y hy
        have hyx : y ≠ x := fun he => (List.nodup_cons.mp hnd).1 (he ▸ hy)
        simp [ho y (List.mem_cons_of_mem _ hy) hyx]
      rw [hrest]
    · have hax : a ≠ x := fun he => (List.nodup_cons.mp hnd).1 (he ▸ hx')
      rw [List.filter_cons,
        if_neg (by simp [ho a (List.mem_cons_self a as) hax])]
      exact ih x hx' hp (List.nodup_cons.mp hnd).2
        (fun y hy hyx => ho y (List.mem_cons_of_mem a hy) hyx)

/-- C8 (amended): a `.txt` artifact without the `_page_` convention is
keyed by its filename with every `.txt` occurrence removed (which is the
filename minus its extension whenever `.txt` occurs only as the
extension), and its group is the singleton `[f]` provided no other listed
`.txt` file shares that key. -/
theorem C8_singleton_amended (f : List Char) (listing : List (List Char))
    (htxt : txtExt.isSuffixOf f = true) (hm : containsList pageMarker f = false)
    (hmem : f ∈ listing) (hnd : listing.Nodup)
    (huniq : ∀ g ∈ listing, g ≠ f → txtExt.isSuffixOf g = true →
      fileKey g ≠ fileKey f) :
    fileKey f = replace_txt f ∧
    groupGet (group_files listing) (replace_txt f) = some [f] := by
  have hkey : fileKey f = replace_txt f := by
    rw [fileKey, if_neg (by simp only [hm]; exact Bool.false_ne_true)]
  refine ⟨hkey, ?_⟩
  have hfilter : keyFiles listing (replace_txt f) = [f] := by
    rw [keyFiles]
    refine filter_eq_singleton_of_unique _ listing f hmem (by simp [htxt, hkey])
      hnd ?_
    intro y hy hyx
    by_cases ht : txtExt.isSuffixOf y = true
    · have hne : fileKey y ≠ replace_txt f := hkey ▸ huniq y hy hyx ht
      simp [ht, beq_eq_false_iff_ne.mpr hne]
    · simp [Bool.eq_false_iff.mpr ht]
  rw [groupGet_group_files, hfilter, if_neg (by simp)]

/-- C8 witness: `b.txt` alone among `.txt` files with its key forms the
singleton group `b`. -/
theorem C8_witness :
    groupGet (group_files [str "b.txt", str "c_page_1.txt"]) (str "b")
      = some [str "b.txt"] :=
  (C8_singleton_amended (str "b.txt") [str "b.txt", str "c_page_1.txt"]
    (by decide) (by decide) (by decide) (by decide) (by decide)).2

/-- An absent key: the results dictionary yields nothing exactly when no
completion carries the key. -/
theorem dictGet_eq_none_iff (c : List (List Char × List Char)) (k : List Char) :
    dictGet c k = none ↔ ∀ v, (k, v) ∉ c := by
  rw [dictGet]
  constructor
  · intro h v hv
    have hm : (k, v) ∈ c.reverse := List.mem_reverse.mpr hv
    have := List.find?_eq_none.mp (Option.map_eq_none'.mp h) (k, v) hm
    simp at this
  · intro h
    rw [Option.map_eq_none', List.find?_eq_none]
    rintro ⟨p1, p2⟩ hp
    simp only [beq_iff_eq]
    intro hk
    subst hk
    exact h p2 (List.mem_reverse.mp hp)

/-- With duplicate-free keys, a key determines its value in the
completions list. -/
theorem keys_nodup_val_unique :
    ∀ (c : List (List Char × List Char)), (c.map Prod.fst).Nodup →
      ∀ k v v', (k, v) ∈ c → (k, v') ∈ c → v = v' := by
  intro c
  induction c with
  | nil => intro _ k v v' h; exact absurd h (List.not_mem_nil _)
  | cons a as ih =>
    intro hnd k v v' h1 h2
    rw [List.map_cons, List.nodup_cons] at hnd
    rcases List.mem_cons.mp h1 with he1 | h1'
    · rcases List.mem_cons.mp h2 with he2 | h2'
      · exact congrArg Prod.snd (he1.trans he2.symm)
      · exact absurd (by rw [← he1]; exact List.mem_map.mpr ⟨(k, v'), h2', rfl⟩)
          hnd.1
    · rcases List.mem_cons.mp h2 with he2 | h2'
      · exact absurd (by rw [← he2]; exact List.mem_map.mpr ⟨(k, v), h1', rfl⟩)
          hnd.1
      · exact ih hnd.2 k v v' h1' h2'

/-- With duplicate-free keys, the results dictionary returns `v` at `k`
exactly when the completion `(k, v)` happened. -/
theorem dictGet_eq_some_iff (c : List (List Char × List Char))
    (hnd : (c.map Prod.fst).Nodup) (k v : List Char) :
    dictGet c k = some v ↔ (k, v) ∈ c := by
  constructor
  · intro h
    rw [dictGet] at h
    obtain ⟨⟨p1, p2⟩, hp, hv⟩ := Option.map_eq_some'.mp h
    have hbeq := List.find?_some hp
    have hpe : p1 = k := beq_iff_eq.mp hbeq
    simp only at hv
    subst hpe
    subst hv
    exact List.mem_reverse.mp (List.mem_of_find?_eq_some hp)
  · intro h
    have hex : ∃ p, c.reverse.find? (fun p => p.1 == k) = some p := by
      rw [← Option.isSome_iff_exists, List.find?_isSome]
      exact ⟨(k, v), List.mem_reverse.mpr h, by simp⟩
    obtain ⟨⟨p1, p2⟩, hp⟩ := hex
    have hbeq2 := List.find?_some hp
    have hpe : p1 = k := beq_iff_eq.mp hbeq2
    subst hpe
    have hpm : (p1, p2) ∈ c := List.mem_reverse.mp (List.mem_of_find?_eq_some hp)
    have hv : p2 = v := keys_nodup_val_unique c hnd p1 p2 v hpm h
    rw [dictGet, hp, hv]
    rfl

/-- Two completion orders that are permutations of each other (with
duplicate-free filenames) build extensionally equal results dictionaries. -/
theorem dictGet_perm (c1 c2 : List (List Char × List Char)) (hperm : c1.Perm c2)
    (hnd : (c1.map Prod.fst).Nodup) (k : List Char) :
    dictGet c1 k = dictGet c2 k := by
  have hnd2 : (c2.map Prod.fst).Nodup := ((hperm.map Prod.fst).nodup_iff).mp hnd
  cases h : dictGet c1 k with
  | some v =>
    exact ((dictGet_eq_some_iff c2 hnd2 k v).mpr
      (hperm.mem_iff.mp ((dictGet_eq_some_iff c1 hnd k v).mp h))).symm
  | none =>
    symm
    rw [dictGet_eq_none_iff]
    intro v hv
    exact (dictGet_eq_none_iff c1 k).mp h v (hperm.mem_iff.mpr hv)

/-- C5: the merged row sequence of an exam is computed over the
page-sorted file list — which is in ascending page-number order — and is
identical for any two completion orders of the concurrent per-page
workers (permutations of the same result set with duplicate-free
filenames): the output does not depend on completion order. -/
theorem C5_merge_completion_order_independent (c1 c2 : List (List Char × List Char))
    (files : List (List Char)) (hperm : c1.Perm c2)
    (hnd : (c1.map Prod.fst).Nodup) :
    merge_csv_data c1 (pySorted files) = merge_csv_data c2 (pySorted files) ∧
    List.Pairwise pageOrder (pySorted files) := by
  refine ⟨?_, List.sorted_insertionSort pageOrder files⟩
  have hrows : pageRows c1 = pageRows c2 := by
    funext f
    rw [pageRows, pageRows, dictGet_perm c1 c2 hperm hnd f]
  rw [merge_csv_data, merge_csv_data, hrows]

/-- C5 witness: two opposite completion orders of a two-page exam merge to
the same row sequence. -/
theorem C5_witness :
    merge_csv_data
        [(str "a_page_1.txt", str "q1,5,t,f,1,1990"),
          (str "a_page_2.txt", str "q2,5,t,f,2,1990")]
        (pySorted [str "a_page_2.txt", str "a_page_1.txt"])
      = merge_csv_data
          [(str "a_page_2.txt", str "q2,5,t,f,2,1990"),
            (str "a_page_1.txt", str "q1,5,t,f,1,1990")]
          (pySorted [str "a_page_2.txt", str "a_page_1.txt"]) :=
  (C5_merge_completion_order_independent _ _ [str "a_page_2.txt", str "a_page_1.txt"]
    (by decide) (by decide)).1

/-- C6: when the language-model call for a page raises, `process_page`
catches it and returns the empty output for that page, and a page whose
recorded result is empty contributes no rows to the merge: the merged
output over the remaining pages is exactly the merge without that page,
so the group (and hence the batch) is not aborted. -/
theorem C6_llm_error_isolated (readFile : List Char → Except String (List Char))
    (llm : String → Except String String) (examId filename text : List Char)
    (page_number : Int) (e : String)
    (hread : readFile filename = Except.ok text)
    (htext : pyStrip text ≠ [])
    (hllm : llm (build_prompt examId page_number text) = Except.error e) :
    process_page readFile llm examId filename page_number = (filename, []) ∧
    (∀ (completions : List (List Char × List Char)) (xs ys : List (List Char)),
      dictGet completions filename = some [] →
      merge_csv_data completions (xs ++ filename :: ys)
        = merge_csv_data completions (xs ++ ys)) := by
  constructor
  · rw [process_page, hread]
    simp only [if_neg htext, hllm]
  · intro completions xs ys hres
    have hpage : pageRows completions filename = [] := by
      rw [pageRows, hres]
      simp
    rw [merge_csv_data, merge_csv_data, List.flatMap_append, List.flatMap_cons,
      hpage, List.nil_append, ← List.flatMap_append]

/-- C6 witness: a concrete failing model call yields the empty page result
and merging skips the failed page. -/
theorem C6_witness :
    process_page (fun _ => Except.ok (str "body")) (fun _ => Except.error "boom")
        (str "EX") (str "EX_page_2.txt") 2 = (str "EX_page_2.txt", []) ∧
    merge_csv_data
        [(str "EX_page_1.txt", str "q,5,t,f,1,1990"), (str "EX_page_2.txt", [])]
        ([str "EX_page_1.txt"] ++ str "EX_page_2.txt" :: [])
      = merge_csv_data
          [(str "EX_page_1.txt", str "q,5,t,f,1,1990"), (str "EX_page_2.txt", [])]
          ([str "EX_page_1.txt"] ++ []) := by
  have h := C6_llm_error_isolated (fun _ => Except.ok (str "body"))
    (fun _ => Except.error "boom") (str "EX") (str "EX_page_2.txt") (str "body") 2
    "boom" rfl (by decide) rfl
  exact ⟨h.1, h.2 _ [str "EX_page_1.txt"] [] (by decide)⟩

/-- The head surviving `dropWhile` fails the predicate. -/
theorem head?_dropWhile_eq_false {p : Char → Bool} :
    ∀ (l : List Char) (a : Char), (l.dropWhile p).head? = some a → p a = false := by
  intro l
  induction l with
  | nil => intro a h; simp [List.dropWhile] at h
  | cons c cs ih =>
    intro a h
    rw [List.dropWhile_cons] at h
    by_cases hc : p c = true
    · rw [if_pos hc] at h
      exact ih a h
    · rw [if_neg hc] at h
      simp only [List.head?_cons, Option.some_inj] at h
      rw [← h]
      exact Bool.eq_false_iff.mpr hc

/-- A nonempty suffix shares the last element of the enclosing list. -/
theorem getLast?_of_suffix {l m : List Char} (h : l <:+ m) (hne : l ≠ []) :
    l.getLast? = m.getLast? := by
  obtain ⟨t, rfl⟩ := h
  exact (List.getLast?_append_of_ne_nil t hne).symm

/-- Stripping annihilates a string exactly when it is all whitespace. -/
theorem pyStrip_eq_nil_iff (t : List Char) :
    pyStrip t = [] ↔ ∀ c ∈ t, pyWs c = true := by
  rw [pyStrip, List.reverse_eq_nil_iff, List.dropWhile_eq_nil_iff]
  constructor
  · intro h c hc
    have hc' : c ∈ t.takeWhile pyWs ++ t.dropWhile pyWs := by
      rw [List.takeWhile_append_dropWhile]; exact hc
    rcases List.mem_append.mp hc' with h1 | h1
    · exact List.mem_takeWhile_imp h1
    · exact h c (List.mem_reverse.mpr h1)
  · intro h c hc
    have h1 : c ∈ t.dropWhile pyWs := List.mem_reverse.mp hc
    exact h c ((List.dropWhile_sublist pyWs).subset h1)

/-- A stripped string that is nonempty stays nonempty under stripping
(its last character is not whitespace). -/
theorem pyStrip_pyStrip_ne_nil (s : List Char) (h : pyStrip s ≠ []) :
    pyStrip (pyStrip s) ≠ [] := by
  intro hcontra
  have hall : ∀ c ∈ pyStrip s, pyWs c = true := (pyStrip_eq_nil_iff _).mp hcontra
  have hw : (s.dropWhile pyWs).reverse.dropWhile pyWs ≠ [] := by
    intro hnil
    apply h
    rw [pyStrip, hnil]
    rfl
  have hlast : ((s.dropWhile pyWs).reverse.dropWhile pyWs).getLast?
      = (s.dropWhile pyWs).head? := by
    rw [getLast?_of_suffix (List.dropWhile_suffix pyWs) hw, List.getLast?_reverse]
  obtain ⟨a, ha⟩ : ∃ a, ((s.dropWhile pyWs).reverse.dropWhile pyWs).getLast? = some a := by
    cases hg : ((s.dropWhile pyWs).reverse.dropWhile pyWs).getLast? with
    | none => exact absurd (List.getLast?_eq_none_iff.mp hg) hw
    | some a => exact ⟨a, rfl⟩
  have hfalse : pyWs a = false :=
    head?_dropWhile_eq_false s a (by rw [← hlast]; exact ha)
  have htrue : pyWs a = true := by
    refine hall a ?_
    rw [pyStrip]
    exact List.mem_reverse.mpr (List.mem_of_mem_getLast? ha)
  rw [hfalse] at htrue
  exact Bool.false_ne_true htrue

/-- A surviving Validator output is the stripped input line, and is still
nonempty after another strip. -/
theorem validate_some_props (row v : List Char)
    (h : validate_csv_row row = some v) :
    v = pyStrip row ∧ pyStrip v ≠ [] := by
  rw [validate_csv_row] at h
  split_ifs at h with h1 h2 h3
  have hv : v = pyStrip row := (Option.some_inj.mp h).symm
  exact ⟨hv, by rw [hv]; exact pyStrip_pyStrip_ne_nil row h1⟩

/-- Every non-header line of a merge result survived the Validator. -/
theorem merge_body_from_validate (c : List (List Char × List Char))
    (fs : List (List Char)) :
    ∀ r ∈ (merge_csv_data c fs).drop 1, ∃ row, validate_csv_row row = some r := by
  intro r hr
  rw [merge_csv_data] at hr
  simp only [List.drop_succ_cons, List.drop_zero] at hr
  obtain ⟨f, hf, hrf⟩ := List.mem_flatMap.mp hr
  rw [pageRows] at hrf
  rcases hres : dictGet c f with _ | out
  · rw [hres] at hrf; simp at hrf
  · rw [hres] at hrf
    have hrf2 : r ∈ (if out = [] then []
        else (pySplitlines [] out).filterMap validate_csv_row) := hrf
    by_cases hout : out = []
    · rw [if_pos hout] at hrf2; simp at hrf2
    · rw [if_neg hout] at hrf2
      obtain ⟨row, _, hrow⟩ := List.mem_filterMap.mp hrf2
      exact ⟨row, hrow⟩

/-- C4 counterexample: a model-output line that is textually identical to
the header has 5 commas and survives validation, so the combined file then
contains the header line twice — contradicting "the header line appears
exactly once". -/
theorem C4_counterexample :
    (save_combined_lines [(str "a",
        merge_csv_data [(str "a_page_1.txt", headerRow)] [str "a_page_1.txt"])]).count
      headerRow = 2 := by
  decide

/-- C4 (amended): for exam data produced by the merger, the combined CSV
has exactly one line per surviving data row plus one header line at the
top — its data-row count is the sum over all merged exams of (that exam's
row count minus 1 header) — and the header line appears exactly once
provided no surviving model-output row is itself textually equal to the
header line. -/
theorem C4_combined_spec (data : List (List Char × List (List Char)))
    (hsrc : ∀ e ∈ data, ∃ c fs, e.2 = merge_csv_data c fs) :
    (save_combined_lines data).length
      = 1 + (data.map (fun e => e.2.length - 1)).sum ∧
    (save_combined_lines data).head? = some headerRow ∧
    ((∀ e ∈ data, headerRow ∉ e.2.drop 1) →
      (save_combined_lines data).count headerRow = 1) := by
  have hkeep : ∀ e ∈ data,
      (e.2.drop 1).filter (fun r => !(pyStrip r).isEmpty) = e.2.drop 1 := by
    intro e he
    obtain ⟨c, fs, hcf⟩ := hsrc e he
    rw [List.filter_eq_self]
    intro r hrmem
    rw [hcf] at hrmem
    obtain ⟨row, hrow⟩ := merge_body_from_validate c fs r hrmem
    obtain ⟨_, hvne⟩ := validate_some_props row r hrow
    simp [List.isEmpty_iff, hvne]
  refine ⟨?_, rfl, ?_⟩
  · rw [save_combined_lines, List.length_cons, List.length_flatMap]
    have hmap : data.map
          (List.length ∘ fun e => (e.2.drop 1).filter (fun r => !(pyStrip r).isEmpty))
        = data.map (fun e => e.2.length - 1) := by
      refine List.map_congr_left fun e he => ?_
      show ((e.2.drop 1).filter (fun r => !(pyStrip r).isEmpty)).length = e.2.length - 1
      rw [hkeep e he, List.length_drop]
    rw [hmap]
    omega
  · intro hnh
    rw [save_combined_lines, List.count_cons_self]
    have hzero : ((data.flatMap
        fun e => (e.2.drop 1).filter (fun r => !(pyStrip r).isEmpty)).count headerRow)
        = 0 := by
      rw [List.count_eq_zero]
      intro hmem
      obtain ⟨e, he, hre⟩ := List.mem_flatMap.mp hmem
      exact hnh e he (List.mem_of_mem_filter hre)
    rw [hzero]

/-- C4 witness: one exam with one surviving data row gives a combined file
of 2 lines whose header appears once. -/
theorem C4_witness :
    (save_combined_lines [(str "a",
        merge_csv_data [(str "a_page_1.txt", str "q,5,t,f,1,1990")]
          [str "a_page_1.txt"])]).count headerRow = 1 := by
  have h := C4_combined_spec
    [(str "a",
      merge_csv_data [(str "a_page_1.txt", str "q,5,t,f,1,1990")] [str "a_page_1.txt"])]
    (by
      intro e he
      rw [List.mem_singleton] at he
      exact ⟨[(str "a_page_1.txt", str "q,5,t,f,1,1990")], [str "a_page_1.txt"],
        by rw [he]⟩)
  exact h.2.2 (by decide)

/-- Closed form of the chunking scan: either everything fits in the open
chunk, or the open chunk is completed and the scan restarts. -/
theorem chunkAux_closed_form {α : Type} (M : Nat) (hM : 0 < M) :
    ∀ (l acc : List α) (k : Nat),
      chunkAux M l acc k =
        if l.length ≤ k then
          (if acc.isEmpty && l.isEmpty then [] else [acc.reverse ++ l])
        else (acc.reverse ++ l.take k) :: chunkAux M (l.drop k) [] M := by
  intro l
  induction l with
  | nil =>
    intro acc k
    by_cases ha : acc.isEmpty <;> simp [chunkAux, ha]
  | cons x xs ih =>
    intro acc k
    cases k with
    | zero =>
      rw [if_neg (by simp)]
      rw [chunkAux]
      simp only [List.take_zero, List.append_nil, List.drop_zero]
      congr 1
      obtain ⟨M', rfl⟩ : ∃ M', M = M' + 1 := ⟨M - 1, by omega⟩
      rw [chunkAux]
      norm_num
    | succ j =>
      rw [chunkAux, ih (x :: acc) j]
      by_cases hlen : xs.length ≤ j
      · have hlen' : (x :: xs).length ≤ j + 1 := by
          simp only [List.length_cons]; omega
        rw [if_pos hlen, if_pos hlen']
        rw [if_neg (show ¬((x :: acc).isEmpty && xs.isEmpty) = true by simp)]
        rw [if_neg (show ¬(acc.isEmpty && (x :: xs).isEmpty) = true by simp)]
        rw [List.reverse_cons, List.append_assoc]
        rfl
      · have hlen' : ¬(x :: xs).length ≤ j + 1 := by
          simp only [List.length_cons]; omega
        rw [if_neg hlen, if_neg hlen']
        rw [List.reverse_cons, List.append_assoc, List.take_succ_cons,
          List.drop_succ_cons]
        rfl

/-- One step of the Chunker: an input of at most `M` pages is a single
chunk (none when empty); otherwise the first `M` pages form a chunk and
the rest is chunked recursively. -/
theorem chunk_pages_step {α : Type} (M : Nat) (hM : 0 < M) (l : List α) :
    chunk_pages M l =
      if l.length ≤ M then (if l.isEmpty then [] else [l])
      else l.take M :: chunk_pages M (l.drop M) := by
  rw [chunk_pages, chunkAux_closed_form M hM l [] M]
  by_cases h : l.length ≤ M
  · rw [if_pos h, if_pos h]
    by_cases he : l.isEmpty <;> simp [he]
  · rw [if_neg h, if_neg h, chunk_pages]
    simp

/-- C3: for any ordered page group of size `N` and positive chunk size `M`
(spec default 8), the Chunker yields `⌈N/M⌉ = (N + M - 1) / M` chunks, each
of at most `M` pages, every chunk except possibly the last of exactly `M`
pages, and their in-order concatenation is the original group: a partition
with no reordering and no overlap. -/
theorem C3_chunker {α : Type} (M : Nat) (pages : List α) (hM : 0 < M) :
    (chunk_pages M pages).length = (pages.length + M - 1) / M ∧
    (∀ c ∈ chunk_pages M pages, c.length ≤ M) ∧
    (∀ i (h : i + 1 < (chunk_pages M pages).length),
      ((chunk_pages M pages).get ⟨i, Nat.lt_of_succ_lt h⟩).length = M) ∧
    (chunk_pages M pages).flatten = pages := by
  suffices H : ∀ n (l : List α), l.length = n →
      (chunk_pages M l).length = (l.length + M - 1) / M ∧
      (∀ c ∈ chunk_pages M l, c.length ≤ M) ∧
      (∀ i (h : i + 1 < (chunk_pages M l).length),
        ((chunk_pages M l).get ⟨i, Nat.lt_of_succ_lt h⟩).length = M) ∧
      (chunk_pages M l).flatten = l by
    exact H pages.length pages rfl
  intro n
  induction n using Nat.strong_induction_on with
  | _ n ih =>
    intro l hl
    rw [chunk_pages_step M hM l]
    by_cases hsmall : l.length ≤ M
    · rw [if_pos hsmall]
      by_cases hemp : l.isEmpty
      · rw [if_pos hemp]
        have hnil : l = [] := List.isEmpty_iff.mp hemp
        subst hnil
        refine ⟨?_, ?_, ?_, rfl⟩
        · show 0 = (0 + M - 1) / M
          rw [Nat.zero_add, Nat.div_eq_of_lt (by omega)]
        · intro c hc; simp at hc
        · intro i h; simp at h
      · rw [if_neg hemp]
        have hne : l ≠ [] := fun he => hemp (by rw [he]; rfl)
        have hlen1 : 0 < l.length := List.length_pos.mpr hne
        refine ⟨?_, ?_, ?_, by simp⟩
        · rw [List.length_singleton]
          symm
          exact Nat.div_eq_of_lt_le (by omega) (by omega)
        · intro c hc
          rw [List.mem_singleton] at hc
          rw [hc]
          exact hsmall
        · intro i h
          rw [List.length_singleton] at h
          omega
    · rw [if_neg hsmall]
      push_neg at hsmall
      have hdroplen : (l.drop M).length = l.length - M := List.length_drop M l
      obtain ⟨ihlen, ihmem, ihexact, ihflat⟩ :=
        ih (l.length - M) (by omega) (l.drop M) hdroplen
      refine ⟨?_, ?_, ?_, ?_⟩
      · rw [List.length_cons, ihlen, hdroplen]
        rw [show l.length - M + M - 1 = l.length - 1 by omega]
        rw [show l.length + M - 1 = l.length - 1 + M by omega]
        rw [Nat.add_div_right _ hM]
      · intro c hc
        rcases List.mem_cons.mp hc with rfl | hc'
        · rw [List.length_take]
          exact min_le_left _ _
        · exact ihmem c hc'
      · intro i h
        cases i with
        | zero =>
          show (l.take M).length = M
          rw [List.length_take]
          omega
        | succ j =>
          have h' : j + 1 < (chunk_pages M (l.drop M)).length := by
            rw [List.length_cons] at h
            omega
          exact ihexact j h'
      · rw [List.flatten_cons, ihflat, List.take_append_drop]

/-- C3 witness: chunking ten pages with the default chunk size 8. -/
theorem C3_witness :
    0 < 8 ∧ (chunk_pages 8 (List.range 10)).flatten = List.range 10 :=
  ⟨Nat.succ_pos 7, (C3_chunker 8 (List.range 10) (by decide)).2.2.2⟩

/-- C9: in separate (per-page) mode the Extractor emits exactly one
artifact per page of the opened document; the artifact is the stripped
native text layer alone when no OCR fragment survives — in particular the
empty artifact when the page yields no text from either layer — and every
kept OCR fragment is non-empty and is appended after a blank-line
separator. -/
theorem C9_separate_artifacts {β : Type} (ocr : β → List Char)
    (pages : List (PdfPage β)) :
    (extract_text_from_pdf_separate ocr pages).length = pages.length ∧
    (∀ p : PdfPage β,
      (∀ t ∈ ocrTexts ocr p.images, t ≠ []) ∧
      (ocrTexts ocr p.images = [] → page_artifact ocr p = pyStrip p.text) ∧
      (pyStrip p.text = [] → ocrTexts ocr p.images = [] → page_artifact ocr p = []) ∧
      (ocrTexts ocr p.images ≠ [] →
        page_artifact ocr p
          = pyStrip p.text ++ str "\n\n"
            ++ List.intercalate (str "\n\n") (ocrTexts ocr p.images))) := by
  refine ⟨List.length_map _ _, fun p => ⟨?_, ?_, ?_, ?_⟩⟩
  · intro t ht
    rw [ocrTexts] at ht
    obtain ⟨ob, _, hsome⟩ := List.mem_filterMap.mp ht
    cases ob with
    | none => simp at hsome
    | some b =>
      have hsome2 : (if pyStrip (ocr b) = [] then none
          else some (pyStrip (ocr b))) = some t := hsome
      by_cases hb : pyStrip (ocr b) = []
      · rw [if_pos hb] at hsome2; simp at hsome2
      · rw [if_neg hb] at hsome2
        rw [← Option.some_inj.mp hsome2]
        exact hb
  · intro h
    simp [page_artifact, h]
  · intro h1 h2
    simp [page_artifact, h1, h2]
  · intro h
    simp only [page_artifact, List.isEmpty_iff]
    rw [if_neg h, List.append_assoc]

/-- C9 witness: a page with blank native text and one image whose OCR is
empty still yields exactly one, empty, artifact. -/
theorem C9_witness :
    (extract_text_from_pdf_separate (fun _ : Unit => str " ")
        [⟨str " ", [some ()]⟩]).length = 1 ∧
    page_artifact (fun _ : Unit => str " ") (⟨str " ", [some ()]⟩ : PdfPage Unit)
      = [] := by
  have h := C9_separate_artifacts (fun _ : Unit => str " ") [⟨str " ", [some ()]⟩]
  exact ⟨h.1, (h.2 ⟨str " ", [some ()]⟩).2.2.1 (by decide) (by decide)⟩

/-- The writes recorded by the per-exam loop all carry more than the
header line, whatever state it starts from. -/
theorem main_loop_writes_invariant (saveOk : List Char → List (List Char) → Bool)
    (resultsFor : List Char → List (List Char) → List (List Char × List Char)) :
    ∀ (groups : List (List Char × List (List Char))) (st : MainState),
      (∀ pr ∈ st.writes, 1 < pr.2.length) →
      ∀ pr ∈ (groups.foldl (main_step saveOk resultsFor) st).writes,
        1 < pr.2.length := by
  intro groups
  induction groups with
  | nil => intro st h; simpa using h
  | cons g gs ih =>
    intro st h
    rw [List.foldl_cons]
    refine ih _ ?_
    simp only [main_step]
    split_ifs with h1 h2
    · intro pr hpr
      rcases List.mem_append.mp hpr with hin | hin
      · exact h pr hin
      · rw [List.mem_singleton] at hin
        rw [hin]
        exact h1
    · intro pr hpr
      rcases List.mem_append.mp hpr with hin | hin
      · exact h pr hin
      · rw [List.mem_singleton] at hin
        rw [hin]
        exact h1
    · exact h

/-- C10: a per-exam CSV write is attempted only when the merged rows hold
more than the header alone; and a group whose merge yields no surviving
row (the merged list is just the header) is a no-op of the loop — it
produces no per-exam file, is excluded from the combined CSV's data, and
is not counted as a successful conversion. -/
theorem C10_save_gating (saveOk : List Char → List (List Char) → Bool)
    (resultsFor : List Char → List (List Char) → List (List Char × List Char)) :
    (∀ groups, ∀ pr ∈ (main_loop saveOk resultsFor groups).writes,
      1 < pr.2.length) ∧
    (∀ (xs : List (List Char × List (List Char))) (p : List Char)
        (files : List (List Char)) (ys : List (List Char × List (List Char))),
      (merge_csv_data (resultsFor p files) (pySorted files)).length ≤ 1 →
      main_loop saveOk resultsFor (xs ++ (p, files) :: ys)
        = main_loop saveOk resultsFor (xs ++ ys)) := by
  constructor
  · intro groups
    exact main_loop_writes_invariant saveOk resultsFor groups ⟨[], [], 0⟩
      (by intro pr hpr; simp at hpr)
  · intro xs p files ys hle
    rw [main_loop, main_loop, List.foldl_append, List.foldl_append,
      List.foldl_cons]
    congr 1
    simp only [main_step]
    rw [if_neg (by omega)]

/-- C10 witness: a group with no model output merges to the bare header
and leaves the loop state untouched, while a group with one valid row is
written with 2 lines. -/
theorem C10_witness :
    main_loop (fun _ _ => true) (fun _ _ => []) [(str "g", [str "g_page_1.txt"])]
      = main_loop (fun _ _ => true) (fun _ _ => []) [] ∧
    (1 : Nat) < (headerRow :: [str "q,5,t,f,1,1990"]).length := by
  constructor
  · have h := (C10_save_gating (fun _ _ => true) (fun _ _ => [])).2
      [] (str "g") [str "g_page_1.txt"] [] (by decide)
    simpa using h
  · have h := (C10_save_gating (fun _ _ => true)
      (fun _ _ => [(str "g_page_1.txt", str "q,5,t,f,1,1990")])).1
      [(str "g", [str "g_page_1.txt"])]
      (str "g", headerRow :: [str "q,5,t,f,1,1990"]) (by decide)
    exact h
